import Mathlib

/-!
Shallow embedding of `src/wordlist_gen.py` (class `WordlistGenerator`).
Python strings are modelled as `List Char`, the wordlist store (a Python
`set`) as a duplicate-free `List Word` grown by `insertWord`, and `None` /
falsy optional arguments as `Option Word` with an explicit emptiness test.
-/

namespace WordlistGen

abbrev Word := List Char

/-- `string.ascii_lowercase`. -/
def asciiLowercase : List Char := "abcdefghijklmnopqrstuvwxyz".toList

/-- `string.ascii_uppercase`. -/
def asciiUppercase : List Char := "ABCDEFGHIJKLMNOPQRSTUVWXYZ".toList

/-- `string.digits`. -/
def asciiDigits : List Char := "0123456789".toList

/-- `string.punctuation`. -/
def asciiPunctuation : List Char := "!\"#$%&\x27()*+,-./:;<=>?@[\\]^_\x60\x7b|\x7d~".toList

/-- `self.charset_map` lookup: the five two-character keys of the dict built
in `WordlistGenerator.__init__`. -/
def charsetMap (key : List Char) : Option (List Char) :=
  if key = ['?', 'l'] then some asciiLowercase
  else if key = ['?', 'u'] then some asciiUppercase
  else if key = ['?', 'd'] then some asciiDigits
  else if key = ['?', 's'] then some asciiPunctuation
  else if key = ['?', 'a'] then some (asciiLowercase ++ asciiUppercase ++ asciiDigits ++ asciiPunctuation)
  else none

/-- The parsing loop of `generate_from_pattern` (lines 41-52): a `?` that
starts a known two-character key consumes two characters and contributes that
charset; every other character becomes a one-character literal slot. -/
def parsePattern : List Char → List (List Char)
  | [] => []
  | [c] => [[c]]
  | c1 :: c2 :: rest =>
    if c1 = '?' then
      match charsetMap [c1, c2] with
      | some cs => cs :: parsePattern rest
      | none => [c1] :: parsePattern (c2 :: rest)
    else [c1] :: parsePattern (c2 :: rest)

/-- `itertools.product(*char_sets)` in enumeration order (leftmost slot varies
slowest). -/
def productLists : List (List Char) → List Word
  | [] => [[]]
  | cs :: rest => cs.flatMap (fun c => (productLists rest).map (fun t => c :: t))

/-- The loop guard `if count and generated >= count: break`: a `None` or `0`
count never stops the enumeration, any other count stops it right after the
`count`-th produced word. -/
def takeCount (count : Option Nat) (l : List Word) : List Word :=
  match count with
  | none => l
  | some c => if c = 0 then l else l.take c

/-- `self.wordlist.add(word)`: set insertion. -/
def insertWord (s : List Word) (w : Word) : List Word :=
  if w ∈ s then s else s ++ [w]

def insertAll (s : List Word) (ws : List Word) : List Word :=
  ws.foldl insertWord s

/-- The words produced by `generate_from_pattern` (before store insertion):
nothing when the parsed slot list is empty, else the possibly-capped product. -/
def patternWords (pattern : List Char) (count : Option Nat) : List Word :=
  let charSets := parsePattern pattern
  if charSets = [] then [] else takeCount count (productLists charSets)

/-- `WordlistGenerator.generate_from_pattern` as a store transformer. -/
def generate_from_pattern (store : List Word) (pattern : List Char) (count : Option Nat) : List Word :=
  insertAll store (patternWords pattern count)

/-- `itertools.product(charset, repeat=length)` in enumeration order. -/
def tuplesOfLen (cs : List Char) : Nat → List Word
  | 0 => [[]]
  | n + 1 => cs.flatMap (fun c => (tuplesOfLen cs n).map (fun t => c :: t))

/-- The nested loops of `generate_from_charset`: lengths
`range(min_len, max_len + 1)` in ascending order, all tuples of each length. -/
def charsetEnum (cs : List Char) (minLen maxLen : Nat) : List Word :=
  (List.range' minLen (maxLen + 1 - minLen)).flatMap (fun n => tuplesOfLen cs n)

/-- The words produced by `generate_from_charset` (the early `return` inside
the inner loop cuts the whole enumeration at `count`). -/
def charsetWords (cs : List Char) (minLen maxLen : Nat) (count : Option Nat) : List Word :=
  takeCount count (charsetEnum cs minLen maxLen)

/-- `WordlistGenerator.generate_from_charset` as a store transformer. -/
def generate_from_charset (store : List Word) (cs : List Char) (minLen maxLen : Nat) (count : Option Nat) : List Word :=
  insertAll store (charsetWords cs minLen maxLen count)

/-- Python `str.lower`. -/
def pyLower (w : Word) : Word := w.map Char.toLower

/-- Python `str.upper`. -/
def pyUpper (w : Word) : Word := w.map Char.toUpper

/-- Python `str.capitalize`: first character uppercased, all remaining
characters lowercased. -/
def pyCapitalize : Word → Word
  | [] => []
  | c :: rest => c.toUpper :: rest.map Char.toLower

/-- Truthiness of an optional string argument (`if name:`): `None` and the
empty string are falsy. -/
def optContrib (f : Word → List Word) : Option Word → List Word
  | none => []
  | some w => if w = [] then [] else f w

/-- The `base_words` list built at lines 96-105: `name` and `place` contribute
original/lower/upper/capitalize, `father_name` and `mother_name` contribute
original/lower/capitalize. -/
def baseWords (name fatherName motherName place : Option Word) : List Word :=
  optContrib (fun n => [n, pyLower n, pyUpper n, pyCapitalize n]) name ++
  optContrib (fun n => [n, pyLower n, pyCapitalize n]) fatherName ++
  optContrib (fun n => [n, pyLower n, pyCapitalize n]) motherName ++
  optContrib (fun n => [n, pyLower n, pyUpper n, pyCapitalize n]) place

/-- `dob.replace('/', '').replace('-', '')`. -/
def dobClean (d : Word) : Word := d.filter (fun c => !(c = '/' || c = '-'))

/-- The `dob_variants` list built at lines 108-121. -/
def dobVariants : Option Word → List Word
  | none => []
  | some d =>
    if d = [] then []
    else
      let clean := dobClean d
      if 8 ≤ clean.length then
        let day := clean.take 2
        let month := (clean.drop 2).take 2
        let year := (clean.drop 4).take 4
        let yearShort := year.drop 2
        [clean, day ++ month ++ year, day ++ month ++ yearShort,
         year, yearShort, day ++ month, month ++ year]
      else []

/-- Python slice `s[-n:]`: the last `n` characters, the whole string when it
is shorter. -/
def lastN (n : Nat) (w : Word) : Word := w.drop (w.length - n)

/-- The `phone_variants` list built at lines 124-129. -/
def phoneVariants : Option Word → List Word
  | none => []
  | some p =>
    if p = [] then []
    else
      let clean := p.filter Char.isDigit
      [clean, lastN 4 clean, lastN 6 clean, lastN 8 clean]

def commonSuffixes : List Word :=
  ["123", "1234", "12345", "!", "@", "#", "123!", "2023", "2024", "2025"].map String.toList

/-- `common_prefixes = ['@', '#', 'my']`. -/
def commonPres : List Word := [['@'], ['#'], ['m', 'y']]

/-- `itertools.combinations(l, 2)` as ordered pairs. -/
def pairCombos : List Word → List (Word × Word)
  | [] => []
  | x :: rest => rest.map (fun y => (x, y)) ++ pairCombos rest

/-- Every word inserted by `add_personal_info_combinations` (lines 137-163):
per base word the word itself, suffixed, prefixed, dob- and phone-combined
forms; then pairwise concatenations of the first four base words. -/
def personalWords (name phone dob fatherName motherName place : Option Word) : List Word :=
  let base := baseWords name fatherName motherName place
  let dobs := dobVariants dob
  let phones := phoneVariants phone
  (base.flatMap (fun w =>
    if w = [] then []
    else [w] ++ commonSuffixes.map (fun s => w ++ s) ++ commonPres.map (fun p => p ++ w)
         ++ dobs.flatMap (fun d => [w ++ d, d ++ w])
         ++ phones.flatMap (fun p => [w ++ p, p ++ w]))) ++
  (if 2 ≤ base.length then (pairCombos (base.take 4)).map (fun pr => pr.1 ++ pr.2) else [])

/-- `WordlistGenerator.add_personal_info_combinations` as a store transformer. -/
def add_personal_info_combinations (store : List Word) (name phone dob fatherName motherName place : Option Word) : List Word :=
  insertAll store (personalWords name phone dob fatherName motherName place)

/-- `self.leetspeak_map` lookup; a character not in the dict maps to `[]`. -/
def leetspeakMap (c : Char) : List Char :=
  if c = 'a' then ['4', '@']
  else if c = 'e' then ['3']
  else if c = 'i' then ['1', '!']
  else if c = 'o' then ['0']
  else if c = 's' then ['5', '$']
  else if c = 't' then ['7']
  else if c = 'l' then ['1']
  else if c = 'g' then ['9']
  else []

/-- `enumerate` starting at index `i`. -/
def enumFrom (i : Nat) : List Char → List (Nat × Char)
  | [] => []
  | c :: rest => (i, c) :: enumFrom (i + 1) rest

/-- The `leet_positions` list (lines 177-180): indices of `word.lower()` whose
character is a key of the leetspeak dict, paired with that lowercased
character. -/
def leetPositions (w : Word) : List (Nat × Char) :=
  (enumFrom 0 (w.map Char.toLower)).filter (fun p => !(leetspeakMap p.2).isEmpty)

/-- The variants generated from one word (lines 183-191). `new_word` is
`list(word)` and is never mutated: each added string is `temp_word`, a fresh
copy of the original word with the single index `pos` replaced. -/
def leetVariantsOfWord (w : Word) : List Word :=
  if leetPositions w ≠ [] ∧ (leetPositions w).length ≤ 4 then
    (List.range' 1 (min (leetPositions w).length 2)).flatMap (fun r =>
      (List.sublistsLen r (leetPositions w)).flatMap (fun combo =>
        combo.flatMap (fun pc =>
          (leetspeakMap pc.2).map (fun repl => w.set pc.1 repl))))
  else []

/-- The Python set `new_words` accumulated over a snapshot of the store. -/
def leetNewWords (store : List Word) : List Word :=
  (store.flatMap leetVariantsOfWord).dedup

/-- `WordlistGenerator.apply_leetspeak`: updates the store with `new_words`
and reports `len(new_words)`. -/
def apply_leetspeak (store : List Word) : List Word × Nat :=
  let nw := leetNewWords store
  (insertAll store nw, nw.length)

/-- Truthiness of `prefix` / `suffix` arguments. -/
def optFalsy : Option Word → Bool
  | none => true
  | some w => w.isEmpty

/-- `WordlistGenerator.apply_prefix_suffix` (lines 215-231): early return when
both arguments are falsy, otherwise every current word gets the truthy parts
attached and the results are added to the store. -/
def apply_affixes (store : List Word) ( pre suf : Option Word) : List Word :=
  if optFalsy pre && optFalsy suf then store
  else
    insertAll store (store.map (fun w =>
      let m := w
      let m := if optFalsy pre then m else pre.getD [] ++ m
      let m := if optFalsy suf then m else m ++ suf.getD []
      m))

/-- `WordlistGenerator.filter_by_length` (lines 234-239). -/
def filter_by_length (store : List Word) (minLen maxLen : Nat) : List Word :=
  store.filter (fun w => decide (minLen ≤ w.length) && decide (w.length ≤ maxLen))

/-- Number of positions at which two words differ (compared pointwise). -/
def diffCount (xs ys : Word) : Nat :=
  (xs.zip ys).countP (fun p => p.1 != p.2)

/-- The slot form the spec's words for C2 describe for `name`/`place`: first
letter capitalized, the remaining characters kept with original case. -/
def specTitleCase : Word → Word
  | [] => []
  | c :: rest => c.toUpper :: rest

/-! ### Store lemmas -/

lemma mem_insertWord {s : List Word} {w x : Word} : x ∈ insertWord s w ↔ x ∈ s ∨ x = w := by
  unfold insertWord
  split_ifs with h
  · constructor
    · exact Or.inl
    · rintro (hx | rfl)
      · exact hx
      · exact h
  · simp [List.mem_append]

lemma mem_insertAll (ws : List Word) : ∀ (s : List Word) (x : Word), x ∈ insertAll s ws ↔ x ∈ s ∨ x ∈ ws := by
  induction ws with
  | nil => simp [insertAll]
  | cons w rest ih =>
    intro s x
    show x ∈ List.foldl insertWord (insertWord s w) rest ↔ _
    rw [show List.foldl insertWord (insertWord s w) rest = insertAll (insertWord s w) rest from rfl,
      ih (insertWord s w) x, mem_insertWord]
    simp [List.mem_cons]
    tauto

lemma subset_insertAll (s ws : List Word) : s ⊆ insertAll s ws :=
  fun _ hx => (mem_insertAll ws s _).mpr (Or.inl hx)

lemma length_insertAll : ∀ (ws : List Word), ws.Nodup → ∀ s : List Word,
    (insertAll s ws).length = s.length + (ws.filter (fun w => decide (w ∉ s))).length := by
  intro ws
  induction ws with
  | nil => simp [insertAll]
  | cons w rest ih =>
    intro hnd s
    have hwrest : w ∉ rest := (List.nodup_cons.mp hnd).1
    have hnd' : rest.Nodup := (List.nodup_cons.mp hnd).2
    show (insertAll (insertWord s w) rest).length = _
    rw [ih hnd' (insertWord s w)]
    by_cases hw : w ∈ s
    · rw [insertWord, if_pos hw]
      simp [List.filter_cons, hw]
    · rw [insertWord, if_neg hw]
      have hfeq : rest.filter (fun v => decide (v ∉ s ++ [w])) = rest.filter (fun v => decide (v ∉ s)) := by
        apply List.filter_congr
        intro x hx
        have hxw : x ≠ w := fun h => hwrest (h ▸ hx)
        simp [List.mem_append, hxw]
      rw [hfeq]
      simp [List.filter_cons, hw]
      omega

/-! ### Charset-enumeration lemmas -/

lemma mem_tuplesOfLen (cs : List Char) : ∀ (n : Nat) (w : Word),
    w ∈ tuplesOfLen cs n ↔ w.length = n ∧ ∀ c ∈ w, c ∈ cs := by
  intro n
  induction n with
  | zero =>
    intro w
    simp only [tuplesOfLen, List.mem_singleton]
    constructor
    · rintro rfl; simp
    · rintro ⟨h, -⟩; exact List.length_eq_zero.mp h
  | succ n ih =>
    intro w
    simp only [tuplesOfLen, List.mem_flatMap, List.mem_map]
    constructor
    · rintro ⟨c, hc, t, ht, rfl⟩
      obtain ⟨hlen, hall⟩ := (ih t).mp ht
      refine ⟨by simp [hlen], ?_⟩
      intro x hx
      rcases List.mem_cons.mp hx with rfl | hx'
      · exact hc
      · exact hall x hx'
    · rintro ⟨hlen, hall⟩
      match w with
      | c :: t =>
        refine ⟨c, hall c (by simp), t, (ih t).mpr ⟨by simpa using hlen, ?_⟩, rfl⟩
        intro x hx
        exact hall x (List.mem_cons_of_mem _ hx)

lemma pairwise_len_flatMap_tuples (cs : List Char) : ∀ lens : List Nat,
    lens.Pairwise (· ≤ ·) →
    List.Pairwise (fun a b : Word => a.length ≤ b.length) (lens.flatMap (fun n => tuplesOfLen cs n)) := by
  intro lens
  induction lens with
  | nil => simp
  | cons l rest ih =>
    intro hpw
    rw [List.flatMap_cons, List.pairwise_append]
    refine ⟨?_, ih hpw.of_cons, ?_⟩
    · apply List.pairwise_of_forall_mem_list
      intro a ha b hb
      have ha' := ((mem_tuplesOfLen cs l a).mp ha).1
      have hb' := ((mem_tuplesOfLen cs l b).mp hb).1
      omega
    · intro a ha b hb
      obtain ⟨m, hm, hbm⟩ := List.mem_flatMap.mp hb
      have hlm : l ≤ m := (List.pairwise_cons.mp hpw).1 m hm
      have ha' := ((mem_tuplesOfLen cs l a).mp ha).1
      have hb' := ((mem_tuplesOfLen cs m b).mp hbm).1
      omega

lemma pairwise_len_charsetEnum (cs : List Char) (minLen maxLen : Nat) :
    List.Pairwise (fun a b : Word => a.length ≤ b.length) (charsetEnum cs minLen maxLen) := by
  apply pairwise_len_flatMap_tuples
  exact (List.pairwise_lt_range' minLen (maxLen + 1 - minLen)).imp Nat.le_of_lt

lemma mem_charsetEnum (cs : List Char) (minLen maxLen : Nat) (w : Word) :
    w ∈ charsetEnum cs minLen maxLen ↔
      minLen ≤ w.length ∧ w.length ≤ maxLen ∧ ∀ c ∈ w, c ∈ cs := by
  unfold charsetEnum
  rw [List.mem_flatMap]
  constructor
  · rintro ⟨n, hn, hw⟩
    obtain ⟨i, hi, rfl⟩ := List.mem_range'.mp hn
    obtain ⟨hlen, hall⟩ := (mem_tuplesOfLen cs _ w).mp hw
    exact ⟨by omega, by omega, hall⟩
  · rintro ⟨h1, h2, hall⟩
    refine ⟨w.length, ?_, (mem_tuplesOfLen cs _ w).mpr ⟨rfl, hall⟩⟩
    rw [List.mem_range']
    exact ⟨w.length - minLen, by omega, by omega⟩

/-! ### Leetspeak lemmas -/

lemma mem_enumFrom : ∀ (l : List Char) (i : Nat) (p : Nat × Char), p ∈ enumFrom i l →
    ∃ k, k < l.length ∧ p.1 = i + k ∧ l[k]? = some p.2 := by
  intro l
  induction l with
  | nil => intro i p h; simp [enumFrom] at h
  | cons c rest ih =>
    intro i p h
    rcases List.mem_cons.mp h with rfl | h'
    · exact ⟨0, by simp, by simp, by simp⟩
    · obtain ⟨k, hk, h1, h2⟩ := ih (i + 1) p h'
      exact ⟨k + 1, by simpa using hk, by omega, by simpa using h2⟩

lemma mem_leetPositions {w : Word} {p : Nat × Char} (h : p ∈ leetPositions w) :
    p.1 < w.length ∧ leetspeakMap p.2 ≠ [] ∧ ∃ a, w[p.1]? = some a ∧ Char.toLower a = p.2 := by
  unfold leetPositions at h
  rw [List.mem_filter] at h
  obtain ⟨hmem, hpred⟩ := h
  obtain ⟨k, hk, h1, h2⟩ := mem_enumFrom _ 0 p hmem
  have hk1 : p.1 = k := by omega
  rw [List.getElem?_map] at h2
  have hlt : p.1 < w.length := by
    rw [hk1]; simpa using hk
  refine ⟨hlt, ?_, ?_⟩
  · intro hnil
    rw [hnil] at hpred
    exact absurd hpred (by decide)
  · match harg : w[k]? with
    | some a =>
      rw [harg] at h2
      simp only [Option.map_some'] at h2
      exact ⟨a, by rw [hk1]; exact harg, by injection h2⟩
    | none =>
      rw [harg] at h2
      simp at h2

lemma leet_values {c repl : Char} (h : repl ∈ leetspeakMap c) :
    repl ∈ ['4', '@', '3', '1', '!', '0', '5', '$', '7', '9'] := by
  unfold leetspeakMap at h
  split_ifs at h <;> simp only [List.mem_cons, List.not_mem_nil, or_false] at h ⊢ <;> tauto

lemma leetspeakMap_toLower_value {repl : Char}
    (hv : repl ∈ ['4', '@', '3', '1', '!', '0', '5', '$', '7', '9']) :
    leetspeakMap (Char.toLower repl) = [] := by
  fin_cases hv <;> decide

lemma leet_repl_ne {c repl : Char} (h : repl ∈ leetspeakMap c) (a : Char)
    (hlow : Char.toLower a = c) : a ≠ repl := by
  rintro rfl
  have hz := leetspeakMap_toLower_value (leet_values h)
  rw [hlow] at hz
  rw [hz] at h
  exact absurd h (List.not_mem_nil _)

lemma mem_leetVariants {w w' : Word} (h : w' ∈ leetVariantsOfWord w) :
    ∃ pos repl a, w[pos]? = some a ∧ a ≠ repl ∧ w' = w.set pos repl := by
  unfold leetVariantsOfWord at h
  split_ifs at h with hcond
  · obtain ⟨r, -, hr⟩ := List.mem_flatMap.mp h
    obtain ⟨combo, hcombo, hc⟩ := List.mem_flatMap.mp hr
    obtain ⟨pc, hpc, hp⟩ := List.mem_flatMap.mp hc
    obtain ⟨repl, hrepl, heq⟩ := List.mem_map.mp hp
    have hpos : pc ∈ leetPositions w :=
      ((List.mem_sublistsLen.mp hcombo).1.subset) hpc
    obtain ⟨-, -, a, ha, hlow⟩ := mem_leetPositions hpos
    exact ⟨pc.1, repl, a, ha, leet_repl_ne (hlow ▸ hrepl) a hlow, heq.symm⟩
  · simp at h

lemma countP_zip_self (l : List Char) : (l.zip l).countP (fun p => p.1 != p.2) = 0 := by
  induction l with
  | nil => rfl
  | cons c rest ih => simp [List.zip_cons_cons, List.countP_cons, ih]

lemma diffCount_set : ∀ (l : Word) (i : Nat) (a x : Char), l[i]? = some a → a ≠ x →
    diffCount l (l.set i x) = 1 := by
  intro l
  induction l with
  | nil => intro i a x h; simp at h
  | cons c rest ih =>
    intro i a x h hne
    cases i with
    | zero =>
      simp only [List.getElem?_cons_zero, Option.some.injEq] at h
      subst h
      unfold diffCount
      simp only [List.set_cons_zero, List.zip_cons_cons, List.countP_cons, countP_zip_self]
      simp [bne_iff_ne, hne]
    | succ n =>
      have h' : rest[n]? = some a := by simpa using h
      have := ih n a x h' hne
      unfold diffCount at *
      simp only [List.set_cons_succ, List.zip_cons_cons, List.countP_cons]
      simp [this]

/-! ### Pattern-parsing lemmas -/

lemma charsetMap_some_ne_nil {k : List Char} {cs : List Char} (h : charsetMap k = some cs) :
    cs ≠ [] := by
  unfold charsetMap at h
  split_ifs at h <;> injection h with h' <;> rw [← h'] <;> decide

lemma parsePattern_slots_ne_nil : ∀ (n : Nat) (p : List Char), p.length ≤ n →
    ∀ s ∈ parsePattern p, s ≠ [] := by
  intro n
  induction n with
  | zero =>
    intro p hp s hs
    have : p = [] := List.length_eq_zero.mp (Nat.le_zero.mp hp)
    subst this
    simp [parsePattern] at hs
  | succ n ih =>
    intro p hp s hs
    match p with
    | [] => simp [parsePattern] at hs
    | [c] =>
      simp only [parsePattern, List.mem_singleton] at hs
      subst hs
      simp
    | c1 :: c2 :: rest =>
      have hlen : rest.length + 2 ≤ n + 1 := by simpa using hp
      by_cases h1 : c1 = '?'
      · cases hcm : charsetMap [c1, c2] with
        | some cs =>
          rw [parsePattern, if_pos h1, hcm] at hs
          rcases List.mem_cons.mp hs with rfl | hs'
          · exact charsetMap_some_ne_nil hcm
          · exact ih rest (by omega) s hs'
        | none =>
          rw [parsePattern, if_pos h1, hcm] at hs
          rcases List.mem_cons.mp hs with rfl | hs'
          · simp
          · exact ih (c2 :: rest) (by simp; omega) s hs'
      · rw [parsePattern, if_neg h1] at hs
        rcases List.mem_cons.mp hs with rfl | hs'
        · simp
        · exact ih (c2 :: rest) (by simp; omega) s hs'

/-! ### Claim theorems -/

/-- C1: the spec claims that for a word with two substitutable positions every
pair from the cartesian product of the two replacement lists is applied
simultaneously. Evaluating `apply_leetspeak` on the store containing only
"as" (positions 0:'a' and 1:'s') shows that no doubly-substituted variant
("45", "4$", "@5", "@$") is ever inserted — only the four single-substitution
variants are, because the code copies the original word for each replacement. -/
theorem c1_no_simultaneous_double_substitution :
    (['4', '5'] ∉ (apply_leetspeak [['a', 's']]).1) ∧
    (['4', '$'] ∉ (apply_leetspeak [['a', 's']]).1) ∧
    (['@', '5'] ∉ (apply_leetspeak [['a', 's']]).1) ∧
    (['@', '$'] ∉ (apply_leetspeak [['a', 's']]).1) ∧
    (['4', 's'] ∈ (apply_leetspeak [['a', 's']]).1) ∧
    (['@', 's'] ∈ (apply_leetspeak [['a', 's']]).1) ∧
    (['a', '5'] ∈ (apply_leetspeak [['a', 's']]).1) ∧
    (['a', '$'] ∈ (apply_leetspeak [['a', 's']]).1) := by decide

/-- C2 counterexample: for the name "aB" the base-word list contains "Ab"
(Python `capitalize` lowercases the tail), which is none of the four forms the
claim allows (original, lowercased, uppercased, first-letter-capitalized with
the rest unchanged). -/
theorem c2_counterexample_titlecase :
    (['A', 'b'] ∈ baseWords (some ['a', 'B']) none none none) ∧
    (['A', 'b'] ∉ [(['a', 'B'] : Word), pyLower ['a', 'B'], pyUpper ['a', 'B'],
      specTitleCase ['a', 'B']]) := by decide

/-- C2 (amended): for every present non-empty name (and likewise place) the
base-word list is exactly original, lowercased, uppercased, and the Python
`capitalize` form — first letter uppercased and the remaining characters
lowercased, not kept unchanged; father/mother name get original, lowercased,
and the same capitalize form, with no uppercase variant. -/
theorem c2_base_word_forms : ∀ n : Word, n ≠ [] →
    baseWords (some n) none none none = [n, pyLower n, pyUpper n, pyCapitalize n] ∧
    baseWords none (some n) none none = [n, pyLower n, pyCapitalize n] ∧
    baseWords none none (some n) none = [n, pyLower n, pyCapitalize n] ∧
    baseWords none none none (some n) = [n, pyLower n, pyUpper n, pyCapitalize n] ∧
    ∀ (c : Char) (rest : List Char),
      pyCapitalize (c :: rest) = c.toUpper :: rest.map Char.toLower := by
  intro n hn
  refine ⟨?_, ?_, ?_, ?_, fun c rest => rfl⟩ <;> simp [baseWords, optContrib, hn]

theorem c2_base_word_forms_witness :
    ((['a', 'B'] : Word) ≠ []) ∧
    (baseWords (some ['a', 'B']) none none none =
      [['a', 'B'], pyLower ['a', 'B'], pyUpper ['a', 'B'], pyCapitalize ['a', 'B']] ∧
     baseWords none (some ['a', 'B']) none none =
      [['a', 'B'], pyLower ['a', 'B'], pyCapitalize ['a', 'B']] ∧
     baseWords none none (some ['a', 'B']) none =
      [['a', 'B'], pyLower ['a', 'B'], pyCapitalize ['a', 'B']] ∧
     baseWords none none none (some ['a', 'B']) =
      [['a', 'B'], pyLower ['a', 'B'], pyUpper ['a', 'B'], pyCapitalize ['a', 'B']] ∧
     ∀ (c : Char) (rest : List Char),
       pyCapitalize (c :: rest) = c.toUpper :: rest.map Char.toLower) :=
  ⟨by decide, c2_base_word_forms ['a', 'B'] (by decide)⟩

/-- C3 counterexample: on the store containing "as" and "4s" the call reports
6 (the size of the generated-variant set, which contains "4s"), while only 5
entries are actually new to the store. -/
theorem c3_counterexample_overcount :
    ((apply_leetspeak [['a', 's'], ['4', 's']]).2 = 6) ∧
    ((apply_leetspeak [['a', 's'], ['4', 's']]).1.length -
      ([['a', 's'], ['4', 's']] : List Word).length = 5) ∧
    ((apply_leetspeak [['a', 's'], ['4', 's']]).2 ≠
      (apply_leetspeak [['a', 's'], ['4', 's']]).1.length -
        ([['a', 's'], ['4', 's']] : List Word).length) := by decide

/-- C3 (amended): the count reported by `apply_leetspeak` equals the number of
distinct variant strings generated during the call; variants identical to
words already present in the store are still counted, and the store itself
grows only by the generated variants not already present. -/
theorem c3_reported_count : ∀ store : List Word,
    (apply_leetspeak store).2 = (leetNewWords store).length ∧
    (∀ w, w ∈ leetNewWords store ↔ ∃ v, v ∈ store ∧ w ∈ leetVariantsOfWord v) ∧
    (apply_leetspeak store).1.length =
      store.length + ((leetNewWords store).filter (fun w => decide (w ∉ store))).length := by
  intro store
  refine ⟨rfl, ?_, ?_⟩
  · intro w
    unfold leetNewWords
    rw [List.mem_dedup, List.mem_flatMap]
  · exact length_insertAll _ (List.nodup_dedup _) store

/-- C4: `generate_from_charset` enumerates lengths from minimum to maximum in
ascending order, a positive cap truncates the enumeration to exactly the first
`c` productions across all lengths, the full enumeration consists of exactly
the strings over the alphabet with length in range, a minimum above the maximum
inserts nothing, and the concrete cap example produces ["a", "b", "aa"]. -/
theorem c4_charset_expansion : ∀ (cs : List Char) (minLen maxLen c : Nat) (store : List Word),
    1 ≤ c →
    charsetWords cs minLen maxLen (some c) = (charsetEnum cs minLen maxLen).take c ∧
    List.Pairwise (fun a b : Word => a.length ≤ b.length) (charsetWords cs minLen maxLen (some c)) ∧
    (∀ w, w ∈ charsetEnum cs minLen maxLen ↔
      minLen ≤ w.length ∧ w.length ≤ maxLen ∧ ∀ ch ∈ w, ch ∈ cs) ∧
    (maxLen < minLen → generate_from_charset store cs minLen maxLen (some c) = store) ∧
    charsetWords ['a', 'b'] 1 2 (some 3) = [['a'], ['b'], ['a', 'a']] := by
  intro cs minLen maxLen c store hc
  have hc0 : ¬ c = 0 := by omega
  have htake : charsetWords cs minLen maxLen (some c) = (charsetEnum cs minLen maxLen).take c := by
    unfold charsetWords
    show (if c = 0 then charsetEnum cs minLen maxLen
      else (charsetEnum cs minLen maxLen).take c) = _
    rw [if_neg hc0]
  refine ⟨htake, ?_, mem_charsetEnum cs minLen maxLen, ?_, by decide⟩
  · rw [htake]
    exact List.Pairwise.sublist (List.take_sublist _ _) (pairwise_len_charsetEnum cs minLen maxLen)
  · intro hlt
    have henum : charsetEnum cs minLen maxLen = [] := by
      unfold charsetEnum
      have h0 : maxLen + 1 - minLen = 0 := by omega
      rw [h0]
      rfl
    unfold generate_from_charset
    rw [htake, henum, List.take_nil]
    rfl

theorem c4_charset_expansion_witness :
    (1 ≤ 3) ∧
    (charsetWords ['a', 'b'] 1 2 (some 3) = (charsetEnum ['a', 'b'] 1 2).take 3 ∧
     List.Pairwise (fun a b : Word => a.length ≤ b.length) (charsetWords ['a', 'b'] 1 2 (some 3)) ∧
     (∀ w, w ∈ charsetEnum ['a', 'b'] 1 2 ↔
       1 ≤ w.length ∧ w.length ≤ 2 ∧ ∀ ch ∈ w, ch ∈ ['a', 'b']) ∧
     (2 < 1 → generate_from_charset [] ['a', 'b'] 1 2 (some 3) = []) ∧
     charsetWords ['a', 'b'] 1 2 (some 3) = [['a'], ['b'], ['a', 'a']]) :=
  ⟨by decide, c4_charset_expansion ['a', 'b'] 1 2 3 [] (by decide)⟩

/-- C5: the date of birth "15/08/1990" yields the six claimed variants, and
any date string whose separator-stripped form has fewer than 8 characters
yields no variants at all. -/
theorem c5_dob_variants :
    ((['1','5','0','8','1','9','9','0'] ∈ dobVariants (some ("15/08/1990".toList))) ∧
     (['1','5','0','8','9','0'] ∈ dobVariants (some ("15/08/1990".toList))) ∧
     (['1','9','9','0'] ∈ dobVariants (some ("15/08/1990".toList))) ∧
     (['9','0'] ∈ dobVariants (some ("15/08/1990".toList))) ∧
     (['1','5','0','8'] ∈ dobVariants (some ("15/08/1990".toList))) ∧
     (['0','8','1','9','9','0'] ∈ dobVariants (some ("15/08/1990".toList)))) ∧
    ∀ d : Word, (dobClean d).length < 8 → dobVariants (some d) = [] := by
  refine ⟨by decide, ?_⟩
  intro d hd
  simp only [dobVariants]
  split_ifs with h1 h2
  · rfl
  · exact absurd hd (by omega)
  · rfl

theorem c5_dob_variants_witness :
    ((dobClean ['1', '2']).length < 8) ∧ dobVariants (some ['1', '2']) = [] :=
  ⟨by decide, c5_dob_variants.2 ['1', '2'] (by decide)⟩

/-- C6: pattern parsing is total and never fails: a `?` starting a known
two-character charset token becomes that charset slot, any other `?` (unknown
token or end of string) and any other character become literal one-character
slots, every slot is non-empty, and "?z" parses to the two literal slots `?`
and `z`. -/
theorem c6_pattern_parsing :
    (∀ (c : Char) (cs : List Char) (rest : List Char), charsetMap ['?', c] = some cs →
      parsePattern ('?' :: c :: rest) = cs :: parsePattern rest) ∧
    (∀ (c : Char) (rest : List Char), charsetMap ['?', c] = none →
      parsePattern ('?' :: c :: rest) = ['?'] :: parsePattern (c :: rest)) ∧
    (∀ (c : Char) (rest : List Char), c ≠ '?' →
      parsePattern (c :: rest) = [c] :: parsePattern rest) ∧
    parsePattern ['?'] = [['?']] ∧
    (∀ (p : List Char) (s : List Char), s ∈ parsePattern p → s ≠ []) ∧
    parsePattern ['?', 'z'] = [['?'], ['z']] := by
  refine ⟨?_, ?_, ?_, by decide, ?_, by decide⟩
  · intro c cs rest h
    simp [parsePattern, h]
  · intro c rest h
    simp [parsePattern, h]
  · intro c rest h
    cases rest with
    | nil => simp [parsePattern]
    | cons c2 r2 => simp [parsePattern, h]
  · intro p s hs
    exact parsePattern_slots_ne_nil p.length p le_rfl s hs

theorem c6_pattern_parsing_witness :
    (charsetMap ['?', 'l'] = some asciiLowercase) ∧
    parsePattern ['?', 'l'] = asciiLowercase :: parsePattern [] :=
  ⟨by decide, c6_pattern_parsing.1 'l' asciiLowercase [] (by decide)⟩

/-- C7: `filter_by_length` keeps exactly the words whose length lies in the
closed interval: a word survives if and only if it was in the store and its
length is between the bounds. -/
theorem c7_filter_by_length : ∀ (store : List Word) (minLen maxLen : Nat), minLen ≤ maxLen →
    ∀ w, w ∈ filter_by_length store minLen maxLen ↔
      w ∈ store ∧ minLen ≤ w.length ∧ w.length ≤ maxLen := by
  intro store minLen maxLen _ w
  unfold filter_by_length
  rw [List.mem_filter]
  simp

theorem c7_filter_by_length_witness :
    (1 ≤ 2) ∧
    ((['a'] : Word) ∈ filter_by_length [['a']] 1 2 ↔
      (['a'] : Word) ∈ [['a']] ∧ 1 ≤ (['a'] : Word).length ∧ (['a'] : Word).length ≤ 2) :=
  ⟨by decide, c7_filter_by_length [['a']] 1 2 (by decide) ['a']⟩

/-- C8: every generation/transform operation only ever adds entries: the store
after each call is a superset of the store before it. -/
theorem c8_generation_additive : ∀ (store : List Word) (pat : List Char) (count : Option Nat)
    (cs : List Char) (minLen maxLen : Nat)
    (name phone dob fatherName motherName place : Option Word) ( pre suf : Option Word),
    store ⊆ generate_from_pattern store pat count ∧
    store ⊆ generate_from_charset store cs minLen maxLen count ∧
    store ⊆ add_personal_info_combinations store name phone dob fatherName motherName place ∧
    store ⊆ (apply_leetspeak store).1 ∧
    store ⊆ apply_affixes store pre suf := by
  intro store pat count cs minLen maxLen name phone dob fatherName motherName place pre suf
  refine ⟨subset_insertAll _ _, subset_insertAll _ _, subset_insertAll _ _,
    subset_insertAll _ _, ?_⟩
  unfold apply_affixes
  split_ifs <;> first
    | exact fun _ hx => hx
    | exact subset_insertAll _ _

theorem c8_generation_additive_witness : (['h', 'i'] : Word) ∈ (apply_leetspeak [['h', 'i']]).1 :=
  (c8_generation_additive [['h', 'i']] [] none [] 0 0
    none none none none none none none none).2.2.2.1 (by decide)

/-- C9: a maximum count of 0 is falsy in the stop check `if count and
generated >= count`, so passing 0 behaves exactly like passing no cap at all:
both pattern and charset generation run to exhaustion. -/
theorem c9_zero_count_uncapped : ∀ (store : List Word) (pat : List Char)
    (cs : List Char) (minLen maxLen : Nat),
    generate_from_pattern store pat (some 0) = generate_from_pattern store pat none ∧
    generate_from_charset store cs minLen maxLen (some 0) =
      generate_from_charset store cs minLen maxLen none := by
  intro store pat cs minLen maxLen
  exact ⟨rfl, rfl⟩

theorem c9_zero_count_uncapped_witness :
    generate_from_pattern [] ['a'] (some 0) = generate_from_pattern [] ['a'] none ∧
    generate_from_charset [] ['a'] 1 1 (some 0) = generate_from_charset [] ['a'] 1 1 none :=
  c9_zero_count_uncapped [] ['a'] ['a'] 1 1

/-- C10: every string inserted by `apply_leetspeak` is some call-time word of
the store with exactly one position replaced: same length, and exactly one
differing character position. -/
theorem c10_leet_single_substitution : ∀ (store : List Word) (w : Word),
    w ∈ leetNewWords store →
    ∃ v, v ∈ store ∧ v.length = w.length ∧ diffCount v w = 1 := by
  intro store w hw
  unfold leetNewWords at hw
  rw [List.mem_dedup, List.mem_flatMap] at hw
  obtain ⟨v, hv, hvar⟩ := hw
  obtain ⟨pos, repl, a, ha, hne, rfl⟩ := mem_leetVariants hvar
  exact ⟨v, hv, (List.length_set v pos repl).symm, diffCount_set v pos a repl ha hne⟩

theorem c10_leet_single_substitution_witness :
    ((['4', 's'] : Word) ∈ leetNewWords [['a', 's']]) ∧
    ∃ v, v ∈ ([['a', 's']] : List Word) ∧ v.length = (['4', 's'] : Word).length ∧
      diffCount v ['4', 's'] = 1 :=
  ⟨by decide, c10_leet_single_substitution [['a', 's']] ['4', 's'] (by decide)⟩

end WordlistGen
